import Mathlib

/-!
Verification of `physrisk/kernel/financial_model.py`.

Shallow embedding of `FinancialModel.get_financial_impacts` and its helpers.
Real (numpy double) arithmetic is modelled exactly by `ℚ`.  The numpy
pseudo-random generator `np.random.Generator(np.random.MT19937(seed=111))` is
modelled by a stream `u : ℕ → ℚ` of uniform draws together with a position
counter: `generator.uniform(size=n)` returns the next `n` elements of the
stream and advances the position.  Python dictionaries are modelled by
association lists in insertion order.  Operations that raise in Python
(`np.percentile` on an empty array or with an out-of-range percentile) are
modelled with `Except`.
-/

set_option maxRecDepth 8000

/-- Equality of `Except` values is decidable when it is on both components. -/
instance {ε α : Type} [DecidableEq ε] [DecidableEq α] : DecidableEq (Except ε α) := by
  intro a b
  cases a <;> cases b
  case error.error x y =>
    exact if h : x = y then isTrue (by rw [h]) else isFalse (by intro q; cases q; exact h rfl)
  case error.ok x y => exact isFalse (by intro q; cases q)
  case ok.error x y => exact isFalse (by intro q; cases q)
  case ok.ok x y =>
    exact if h : x = y then isTrue (by rw [h]) else isFalse (by intro q; cases q; exact h rfl)

namespace Physrisk

/-- `ImpactType` from `physrisk.kernel.impact_distrib`: the two semantic kinds
of fractional impact used by `get_financial_impacts`. -/
inductive ImpactType where
  | damage
  | disruption
deriving DecidableEq, Repr

/-- A Python `datetime(year, month, day)` value as constructed by the code. -/
structure PyDateTime where
  year : Int
  month : Nat
  day : Nat
deriving DecidableEq, Repr

/-- Shallow embedding of `ImpactDistrib`.  `event_type` holds
`impact.event_type.__name__` (the hazard event class name).
Modelled from the spec: `to_exceedance_curve().get_samples(draws)` is outside
the fragment; per the spec it is pure inverse-CDF sampling, i.e. the pointwise
application of the inverse exceedance curve `curve` to each uniform draw. -/
structure ImpactDistrib where
  impact_type : ImpactType
  event_type : String
  curve : ℚ → ℚ

/-- The `FinancialDataProvider` interface: external exposure valuer. -/
structure FinancialDataProvider (A : Type) where
  get_asset_value : A → String → ℚ
  get_asset_aggregate_cashflows : A → PyDateTime → PyDateTime → String → ℚ

/-- A record of one call made to the `FinancialDataProvider` (used to reason
about which provider method the engine invokes and with which arguments). -/
inductive ProviderCall (A : Type) where
  | assetValue (asset : A) (currency : String)
  | aggregateCashflows (asset : A) (start : PyDateTime) (stop : PyDateTime) (currency : String)
deriving DecidableEq, Repr

/-- `DefaultAggregator.get_aggregation_keys`:
`return [(impact.event_type.__name__), ("root")]`. -/
def DefaultAggregator.get_aggregation_keys (_asset : A) (impact : ImpactDistrib) :
    List String :=
  [impact.event_type, "root"]

/-- The exposure-conversion branch of the loop body:
`if impact.impact_type == ImpactType.damage: trans = data_provider.get_asset_value(asset, currency)`
`else: trans = data_provider.get_asset_aggregate_cashflows(asset, datetime(year, 1, 1), datetime(year, 12, 31), currency)`.
Returns the scalar together with the record of the provider call made. -/
def getTrans (data_provider : FinancialDataProvider A) (currency : String) (year : Int)
    (asset : A) (impact : ImpactDistrib) : ℚ × ProviderCall A :=
  if impact.impact_type = ImpactType.damage then
    (data_provider.get_asset_value asset currency, ProviderCall.assetValue asset currency)
  else
    (data_provider.get_asset_aggregate_cashflows asset ⟨year, 1, 1⟩ ⟨year, 12, 31⟩ currency,
      ProviderCall.aggregateCashflows asset ⟨year, 1, 1⟩ ⟨year, 12, 31⟩ currency)

/-- `generator.uniform(size=samples)` with the generator at stream position
`c`: the next `samples` draws and the advanced position. -/
def uniform (u : Nat → ℚ) (c : Nat) (samples : Nat) : List ℚ × Nat :=
  ((List.range samples).map fun j => u (c + j), c + samples)

/-- `FinancialModel.uncorrelated_samples`:
`impact.to_exceedance_curve().get_samples(generator.uniform(size=samples))`. -/
def uncorrelated_samples (impact : ImpactDistrib) (samples : Nat) (u : Nat → ℚ) (c : Nat) :
    List ℚ × Nat :=
  (((List.range samples).map fun j => u (c + j)).map impact.curve, c + samples)

/-- Element-wise vector addition (numpy `+` on two equal-length 1-d arrays). -/
def addVec (v w : List ℚ) : List ℚ := List.zipWith (fun a b => a + b) v w

/-- `np.zeros(n)`. -/
def zeros (n : Nat) : List ℚ := List.replicate n (0 : ℚ)

/-- Dictionary lookup in the `aggregation_pools` association list. -/
def poolLookup : List (String × List ℚ) → String → Option (List ℚ)
  | [], _ => none
  | (k, v) :: rest, key => if k = key then some v else poolLookup rest key

/-- One iteration of `for key in keys`:
`if key not in aggregation_pools: aggregation_pools[key] = np.zeros(sims)`
`aggregation_pools[key] += loss`.
A fresh key is appended at the end (Python dict insertion order). -/
def poolAdd : List (String × List ℚ) → Nat → String → List ℚ → List (String × List ℚ)
  | [], sims, key, loss => [(key, addVec (zeros sims) loss)]
  | (k, v) :: rest, sims, key, loss =>
    if k = key then (k, addVec v loss) :: rest
    else (k, v) :: poolAdd rest sims key loss

/-- Loop state of `get_financial_impacts`: the pools dictionary, the stream
position of the shared random generator, and the trace of provider calls. -/
structure RunState (A : Type) where
  aggregation_pools : List (String × List ℚ)
  pos : Nat
  calls : List (ProviderCall A)

/-- The body of `for asset, result in results.items()`: look up the keys,
convert units via the provider, draw the Monte-Carlo loss vector once
(`loss = trans * self.uncorrelated_samples(impact, sims, rg)`) and accumulate
it into the pool of every key. -/
def processAsset (data_provider : FinancialDataProvider A)
    (aggregator : A → ImpactDistrib → List String) (currency : String) (year : Int)
    (sims : Nat) (u : Nat → ℚ) (st : RunState A) (r : A × ImpactDistrib) : RunState A :=
  let keys := aggregator r.1 r.2
  let tc := getTrans data_provider currency year r.1 r.2
  let sc := uncorrelated_samples r.2 sims u st.pos
  let loss := sc.1.map fun x => tc.1 * x
  { aggregation_pools := keys.foldl (fun p key => poolAdd p sims key loss) st.aggregation_pools,
    pos := sc.2,
    calls := st.calls ++ [tc.2] }

/-- `percentiles = [0, 10, 20, 40, 60, 80, 90, 95, 97.5, 99, 99.5, 99.9]`. -/
def percentiles : List ℚ :=
  [0, 10, 20, 40, 60, 80, 90, 95, 97.5, 99, 99.5, 99.9]

/-- Floor of a rational as a natural number; for `0 ≤ q` (the only case
reached from `np_percentile`, whose range check enforces `0 ≤ q`) this equals
`(⌊q⌋).toNat`. -/
def floorIdx (q : ℚ) : Nat := q.num.toNat / q.den

/-- Linear interpolation of sorted data `s` at virtual index `idx`
(numpy's default `linear` interpolation of order statistics). -/
def interpAt (s : List ℚ) (idx : ℚ) : ℚ :=
  s.getD (floorIdx idx) 0 +
    (idx - (floorIdx idx : ℚ)) *
      (s.getD (floorIdx idx + 1) (s.getD (floorIdx idx) 0) - s.getD (floorIdx idx) 0)

/-- `np.percentile(v, qs)` with the default `linear` method: raises on an
empty array or a percentile outside `[0, 100]`; otherwise evaluates the
interpolated order statistic at `q / 100 * (n - 1)` for each `q`. -/
def np_percentile (v : List ℚ) (qs : List ℚ) : Except String (List ℚ) :=
  if v.isEmpty then
    Except.error "cannot do a non-empty take from an empty axes"
  else if qs.all fun q => decide (0 ≤ q) && decide (q ≤ 100) then
    Except.ok (qs.map fun q =>
      interpAt (List.insertionSort (fun a b => a ≤ b) v) (q / 100 * ((v.length : ℚ) - 1)))
  else
    Except.error "percentiles must be in the range 0 to 100"

/-- `np.mean(v)` (the `v = []` case yields `0` here; it is unreachable in a
successful run because `np.percentile` raises first on an empty pool). -/
def np_mean (v : List ℚ) : ℚ := v.sum / (v.length : ℚ)

/-- One entry of the returned `measures` dictionary. -/
structure PoolMeasure where
  percentiles : List ℚ
  percentile_values : List ℚ
  mean : ℚ
deriving DecidableEq, Repr

/-- The final loop of `get_financial_impacts`: for each pool, build the
`{"percentiles", "percentile_values", "mean"}` record (in Python the
`np.percentile` call raises before `np.mean` is evaluated, hence `np_mean`
is only reached on success of `np_percentile`). -/
def computeMeasures : List (String × List ℚ) → Except String (List (String × PoolMeasure))
  | [] => Except.ok []
  | (k, loss) :: rest =>
    match np_percentile loss percentiles with
    | Except.error e => Except.error e
    | Except.ok pv =>
      match computeMeasures rest with
      | Except.error e => Except.error e
      | Except.ok ms => Except.ok ((k, ⟨percentiles, pv, np_mean loss⟩) :: ms)

/-- The accumulation pass of `get_financial_impacts`: fold the loop body over
the `results` items (the output of the external `calculate_impacts`, taken
here as an input), starting from empty pools, stream position 0 and an empty
call trace. -/
def runState (results : List (A × ImpactDistrib)) (data_provider : FinancialDataProvider A)
    (aggregator : A → ImpactDistrib → List String) (currency : String) (year : Int)
    (sims : Nat) (u : Nat → ℚ) : RunState A :=
  results.foldl (processAsset data_provider aggregator currency year sims u) ⟨[], 0, []⟩

/-- `FinancialModel.get_financial_impacts`.  `results` stands for the output
of the external Impact Source `calculate_impacts(assets, ..., scenario, year)`;
`u` is the draw stream of the seeded generator.  Returns the measures mapping
(or the Python exception) together with the trace of provider calls. -/
def get_financial_impacts (results : List (A × ImpactDistrib))
    (data_provider : FinancialDataProvider A)
    (aggregator : A → ImpactDistrib → List String) (currency : String) (year : Int)
    (sims : Nat) (u : Nat → ℚ) :
    Except String (List (String × PoolMeasure)) × List (ProviderCall A) :=
  let st := runState results data_provider aggregator currency year sims u
  (computeMeasures st.aggregation_pools, st.calls)

/-! ### Vector lemmas -/

theorem addVec_length (v w : List ℚ) : (addVec v w).length = min v.length w.length := by
  simp [addVec]

theorem addVec_getD (v w : List ℚ) (j : Nat) (hv : j < v.length) (hw : j < w.length) :
    (addVec v w).getD j 0 = v.getD j 0 + w.getD j 0 := by
  induction v generalizing w j with
  | nil => simp at hv
  | cons a v ih =>
    cases w with
    | nil => simp at hw
    | cons b w =>
      cases j with
      | zero => simp [addVec]
      | succ j =>
        simp only [addVec, List.zipWith_cons_cons, List.getD_cons_succ]
        exact ih w j (Nat.lt_of_succ_lt_succ hv) (Nat.lt_of_succ_lt_succ hw)

theorem zeros_length (n : Nat) : (zeros n).length = n :=
  List.length_replicate n 0

theorem zeros_getD (n j : Nat) : (zeros n).getD j 0 = 0 := by
  induction n generalizing j with
  | zero => simp [zeros]
  | succ n ih =>
    cases j with
    | zero => simp [zeros, List.replicate_succ]
    | succ j =>
      simp only [zeros, List.replicate_succ, List.getD_cons_succ]
      exact ih j

/-! ### Pool dictionary lemmas -/

/-- The value of pool `k` at sample index `j`, taking `0` for an absent key. -/
def poolGetD (ps : List (String × List ℚ)) (k : String) (j : Nat) : ℚ :=
  match poolLookup ps k with
  | some v => v.getD j 0
  | none => 0

/-- The keys of the pools dictionary, in insertion order. -/
def poolKeys (ps : List (String × List ℚ)) : List String := ps.map Prod.fst

theorem poolLookup_poolAdd (ps : List (String × List ℚ)) (sims : Nat) (key k : String)
    (w : List ℚ) :
    poolLookup (poolAdd ps sims key w) k =
      if key = k then some (addVec ((poolLookup ps k).getD (zeros sims)) w)
      else poolLookup ps k := by
  induction ps with
  | nil =>
    by_cases h : key = k <;> simp [poolAdd, poolLookup, h]
  | cons kv rest ih =>
    obtain ⟨k', v⟩ := kv
    by_cases hkk : key = k
    · subst hkk
      simp only [poolAdd, poolLookup, if_pos rfl]
      by_cases h1 : k' = key
      · subst h1
        simp [poolLookup]
      · rw [if_neg h1]
        simp only [poolLookup, if_neg h1]
        rw [ih]
        simp
    · simp only [poolAdd, poolLookup, if_neg hkk]
      by_cases h1 : k' = key
      · subst h1
        have h2 : ¬k' = k := fun h => hkk h
        simp [poolLookup, h2]
      · rw [if_neg h1]
        by_cases h2 : k' = k
        · subst h2
          simp [poolLookup]
        · simp only [poolLookup, if_neg h2]
          rw [ih, if_neg hkk]

theorem poolAdd_sizes (ps : List (String × List ℚ)) (sims : Nat) (key : String) (w : List ℚ)
    (hps : ∀ kv ∈ ps, (kv.2 : List ℚ).length = sims) (hw : w.length = sims) :
    ∀ kv ∈ poolAdd ps sims key w, (kv.2 : List ℚ).length = sims := by
  induction ps with
  | nil =>
    intro kv hkv
    simp only [poolAdd, List.mem_singleton] at hkv
    subst hkv
    simp [addVec_length, zeros_length, hw]
  | cons kv0 rest ih =>
    obtain ⟨k', v⟩ := kv0
    intro kv hkv
    by_cases h : k' = key
    · simp only [poolAdd, if_pos h, List.mem_cons] at hkv
      rcases hkv with h1 | h1
      · subst h1
        have hv := hps (k', v) (List.mem_cons_self _ _)
        simp only at hv
        simp [addVec_length, hv, hw]
      · exact hps kv (List.mem_cons_of_mem _ h1)
    · simp only [poolAdd, if_neg h, List.mem_cons] at hkv
      rcases hkv with h1 | h1
      · subst h1
        exact hps (k', v) (List.mem_cons_self _ _)
      · exact ih (fun kv2 h2 => hps kv2 (List.mem_cons_of_mem _ h2)) kv h1

theorem poolLookup_eq_none_iff (ps : List (String × List ℚ)) (k : String) :
    poolLookup ps k = none ↔ k ∉ poolKeys ps := by
  induction ps with
  | nil => simp [poolLookup, poolKeys]
  | cons kv rest ih =>
    obtain ⟨k', v⟩ := kv
    by_cases h : k' = k
    · subst h
      simp [poolLookup, poolKeys]
    · simp only [poolLookup, if_neg h, poolKeys, List.map_cons, List.mem_cons]
      constructor
      · intro hnone hor
        rcases hor with h1 | h1
        · exact h h1.symm
        · exact (ih.mp hnone) h1
      · intro hnot
        exact ih.mpr fun hm => hnot (Or.inr hm)

theorem poolKeys_poolAdd (ps : List (String × List ℚ)) (sims : Nat) (key : String)
    (w : List ℚ) :
    poolKeys (poolAdd ps sims key w) =
      if key ∈ poolKeys ps then poolKeys ps else poolKeys ps ++ [key] := by
  induction ps with
  | nil => simp [poolAdd, poolKeys]
  | cons kv rest ih =>
    obtain ⟨k', v⟩ := kv
    by_cases h : k' = key
    · subst h
      simp [poolAdd, poolKeys]
    · simp only [poolAdd, if_neg h, poolKeys, List.map_cons]
      simp only [poolKeys] at ih
      rw [ih]
      by_cases hmem : key ∈ rest.map Prod.fst
      · rw [if_pos hmem, if_pos (List.mem_cons_of_mem _ hmem)]
      · have hkey : key ∉ k' :: rest.map Prod.fst := by
          intro hk
          rcases List.mem_cons.mp hk with h1 | h1
          · exact h h1.symm
          · exact hmem h1
        rw [if_neg hmem, if_neg hkey, List.cons_append]

theorem mem_poolKeys_poolAdd (ps : List (String × List ℚ)) (sims : Nat) (key k : String)
    (w : List ℚ) :
    k ∈ poolKeys (poolAdd ps sims key w) ↔ k ∈ poolKeys ps ∨ k = key := by
  rw [poolKeys_poolAdd]
  by_cases hmem : key ∈ poolKeys ps
  · rw [if_pos hmem]
    constructor
    · exact Or.inl
    · intro h
      rcases h with h | h
      · exact h
      · exact h ▸ hmem
  · rw [if_neg hmem]
    simp [List.mem_append]

theorem nodup_poolKeys_poolAdd (ps : List (String × List ℚ)) (sims : Nat) (key : String)
    (w : List ℚ) (hps : (poolKeys ps).Nodup) :
    (poolKeys (poolAdd ps sims key w)).Nodup := by
  rw [poolKeys_poolAdd]
  by_cases hmem : key ∈ poolKeys ps
  · rw [if_pos hmem]
    exact hps
  · rw [if_neg hmem]
    refine hps.append (List.nodup_singleton key) ?_
    intro a ha hb
    rw [List.mem_singleton] at hb
    subst hb
    exact hmem ha

theorem poolLookup_of_mem_nodup (ps : List (String × List ℚ)) (k : String) (v : List ℚ)
    (hps : (poolKeys ps).Nodup) (hmem : (k, v) ∈ ps) : poolLookup ps k = some v := by
  induction ps with
  | nil => simp at hmem
  | cons kv rest ih =>
    obtain ⟨k', v'⟩ := kv
    simp only [poolKeys, List.map_cons, List.nodup_cons] at hps
    rcases List.mem_cons.mp hmem with h1 | h1
    · rw [Prod.mk.injEq] at h1
      obtain ⟨h2, h3⟩ := h1
      subst h2; subst h3
      simp [poolLookup]
    · have hne : k' ≠ k := by
        intro h
        subst h
        exact hps.1 (List.mem_map.mpr ⟨(k', v), h1, rfl⟩)
      simp only [poolLookup, if_neg hne]
      exact ih hps.2 h1

/-! ### Run characterization -/

section Run

variable {A : Type} (data_provider : FinancialDataProvider A)
  (aggregator : A → ImpactDistrib → List String) (currency : String) (year : Int)
  (sims : Nat) (u : Nat → ℚ)

/-- The loss vector drawn for one asset whose samples start at stream
position `c`: exposure scalar times the inverse-curve image of the draws. -/
def lossVecAt (c : Nat) (r : A × ImpactDistrib) : List ℚ :=
  (List.range sims).map fun j =>
    (getTrans data_provider currency year r.1 r.2).1 * r.2.curve (u (c + j))

theorem lossVecAt_length (c : Nat) (r : A × ImpactDistrib) :
    (lossVecAt data_provider currency year sims u c r).length = sims := by
  simp [lossVecAt]

theorem lossVecAt_getD (c : Nat) (r : A × ImpactDistrib) (j : Nat) (hj : j < sims) :
    (lossVecAt data_provider currency year sims u c r).getD j 0 =
      (getTrans data_provider currency year r.1 r.2).1 * r.2.curve (u (c + j)) := by
  unfold lossVecAt
  rw [List.getD_eq_getElem?_getD, List.getElem?_map, List.getElem?_range hj]
  rfl

/-- The loop body rewritten: single loss vector, generator advanced by
exactly `sims`, one provider call appended. -/
theorem processAsset_eq (st : RunState A) (r : A × ImpactDistrib) :
    processAsset data_provider aggregator currency year sims u st r =
      ⟨(aggregator r.1 r.2).foldl
          (fun p key => poolAdd p sims key (lossVecAt data_provider currency year sims u st.pos r))
          st.aggregation_pools,
        st.pos + sims,
        st.calls ++ [(getTrans data_provider currency year r.1 r.2).2]⟩ := by
  simp [processAsset, uncorrelated_samples, lossVecAt, List.map_map, Function.comp_def]

theorem poolLookup_mem (ps : List (String × List ℚ)) (k : String) (v : List ℚ)
    (h : poolLookup ps k = some v) : (k, v) ∈ ps := by
  induction ps with
  | nil => simp [poolLookup] at h
  | cons kv rest ih =>
    obtain ⟨k', v'⟩ := kv
    by_cases h1 : k' = k
    · subst h1
      simp [poolLookup] at h
      subst h
      exact List.mem_cons_self _ _
    · simp only [poolLookup, if_neg h1] at h
      exact List.mem_cons_of_mem _ (ih h)

theorem poolGetD_poolAdd (ps : List (String × List ℚ)) (key k : String) (w : List ℚ)
    (j : Nat) (hps : ∀ kv ∈ ps, (kv.2 : List ℚ).length = sims) (hw : w.length = sims)
    (hj : j < sims) :
    poolGetD (poolAdd ps sims key w) k j =
      poolGetD ps k j + if key = k then w.getD j 0 else 0 := by
  unfold poolGetD
  rw [poolLookup_poolAdd]
  by_cases h : key = k
  · rw [if_pos h, if_pos h]
    cases hlk : poolLookup ps k with
    | none =>
      simp only [hlk, Option.getD_none]
      rw [addVec_getD _ _ _ (by rw [zeros_length]; exact hj) (by rw [hw]; exact hj),
        zeros_getD]
    | some v =>
      have hv : v.length = sims := hps (k, v) (poolLookup_mem ps k v hlk)
      simp only [hlk, Option.getD_some]
      rw [addVec_getD _ _ _ (by rw [hv]; exact hj) (by rw [hw]; exact hj)]
  · rw [if_neg h, if_neg h, add_zero]

theorem foldlKeys_sizes (keys : List String) (ps : List (String × List ℚ)) (w : List ℚ)
    (hps : ∀ kv ∈ ps, (kv.2 : List ℚ).length = sims) (hw : w.length = sims) :
    ∀ kv ∈ keys.foldl (fun p key => poolAdd p sims key w) ps, (kv.2 : List ℚ).length = sims := by
  induction keys generalizing ps with
  | nil => exact hps
  | cons key keys ih =>
    simp only [List.foldl_cons]
    exact ih _ (poolAdd_sizes ps sims key w hps hw)

theorem poolGetD_foldlKeys (keys : List String) (ps : List (String × List ℚ)) (k : String)
    (w : List ℚ) (j : Nat) (hps : ∀ kv ∈ ps, (kv.2 : List ℚ).length = sims)
    (hw : w.length = sims) (hj : j < sims) :
    poolGetD (keys.foldl (fun p key => poolAdd p sims key w) ps) k j =
      poolGetD ps k j + (keys.count k : ℚ) * w.getD j 0 := by
  induction keys generalizing ps with
  | nil => simp
  | cons key keys ih =>
    simp only [List.foldl_cons]
    rw [ih _ (poolAdd_sizes ps sims key w hps hw),
      poolGetD_poolAdd sims ps key k w j hps hw hj, List.count_cons]
    by_cases h : key = k
    · simp only [if_pos h, h, beq_self_eq_true, if_pos]
      push_cast
      ring
    · have hb : ¬((key == k) = true) := by
        simp only [beq_iff_eq]
        exact h
      simp only [if_neg h, if_neg hb]
      push_cast
      ring

theorem mem_poolKeys_foldlKeys (keys : List String) (ps : List (String × List ℚ))
    (k : String) (w : List ℚ) :
    k ∈ poolKeys (keys.foldl (fun p key => poolAdd p sims key w) ps) ↔
      k ∈ poolKeys ps ∨ k ∈ keys := by
  induction keys generalizing ps with
  | nil => simp
  | cons key keys ih =>
    simp only [List.foldl_cons]
    rw [ih]
    rw [mem_poolKeys_poolAdd]
    simp only [List.mem_cons]
    tauto

theorem nodup_poolKeys_foldlKeys (keys : List String) (ps : List (String × List ℚ))
    (w : List ℚ) (hps : (poolKeys ps).Nodup) :
    (poolKeys (keys.foldl (fun p key => poolAdd p sims key w) ps)).Nodup := by
  induction keys generalizing ps with
  | nil => exact hps
  | cons key keys ih =>
    simp only [List.foldl_cons]
    exact ih _ (nodup_poolKeys_poolAdd ps sims key w hps)

/-- The multiplicity-weighted contribution to pool `k` at sample index `j`
from the assets of `results`, their draws starting at stream position `c`:
each asset contributes its loss sample once per occurrence of `k` in its
aggregation-key list. -/
def contribSum (k : String) (j : Nat) : Nat → List (A × ImpactDistrib) → ℚ
  | _, [] => 0
  | c, r :: rest =>
      ((aggregator r.1 r.2).count k : ℚ) *
          (lossVecAt data_provider currency year sims u c r).getD j 0 +
        contribSum k j (c + sims) rest

theorem foldl_sizes (results : List (A × ImpactDistrib)) :
    ∀ (st : RunState A), (∀ kv ∈ st.aggregation_pools, (kv.2 : List ℚ).length = sims) →
    ∀ kv ∈ (results.foldl (processAsset data_provider aggregator currency year sims u)
        st).aggregation_pools, (kv.2 : List ℚ).length = sims := by
  induction results with
  | nil => intro st h; exact h
  | cons r rest ih =>
    intro st h
    simp only [List.foldl_cons]
    apply ih
    rw [processAsset_eq]
    exact foldlKeys_sizes sims _ _ _ h
      (lossVecAt_length data_provider currency year sims u st.pos r)

theorem poolGetD_foldl (k : String) (j : Nat) (hj : j < sims)
    (results : List (A × ImpactDistrib)) :
    ∀ (st : RunState A), (∀ kv ∈ st.aggregation_pools, (kv.2 : List ℚ).length = sims) →
    poolGetD ((results.foldl (processAsset data_provider aggregator currency year sims u)
          st).aggregation_pools) k j =
      poolGetD st.aggregation_pools k j +
        contribSum data_provider aggregator currency year sims u k j st.pos results := by
  induction results with
  | nil => intro st _; simp [contribSum]
  | cons r rest ih =>
    intro st h
    simp only [List.foldl_cons, contribSum]
    rw [ih _ (by rw [processAsset_eq]
                 exact foldlKeys_sizes sims _ _ _ h
                   (lossVecAt_length data_provider currency year sims u st.pos r))]
    rw [processAsset_eq]
    simp only
    rw [poolGetD_foldlKeys sims _ _ _ _ _ h
      (lossVecAt_length data_provider currency year sims u st.pos r) hj]
    ring

theorem pos_foldl (results : List (A × ImpactDistrib)) :
    ∀ (st : RunState A),
    (results.foldl (processAsset data_provider aggregator currency year sims u) st).pos =
      st.pos + results.length * sims := by
  induction results with
  | nil => intro st; simp
  | cons r rest ih =>
    intro st
    simp only [List.foldl_cons, List.length_cons]
    rw [ih, processAsset_eq]
    simp only
    ring

theorem calls_foldl (results : List (A × ImpactDistrib)) :
    ∀ (st : RunState A),
    (results.foldl (processAsset data_provider aggregator currency year sims u) st).calls =
      st.calls ++ results.map (fun r => (getTrans data_provider currency year r.1 r.2).2) := by
  induction results with
  | nil => intro st; simp
  | cons r rest ih =>
    intro st
    simp only [List.foldl_cons, List.map_cons]
    rw [ih, processAsset_eq]
    simp

theorem mem_poolKeys_foldl (k : String) (results : List (A × ImpactDistrib)) :
    ∀ (st : RunState A),
    k ∈ poolKeys ((results.foldl (processAsset data_provider aggregator currency year sims u)
        st).aggregation_pools) ↔
      k ∈ poolKeys st.aggregation_pools ∨ ∃ r ∈ results, k ∈ aggregator r.1 r.2 := by
  induction results with
  | nil => intro st; simp
  | cons r rest ih =>
    intro st
    simp only [List.foldl_cons, List.mem_cons]
    rw [ih, processAsset_eq]
    simp only
    rw [mem_poolKeys_foldlKeys]
    constructor
    · intro h
      rcases h with (h | h) | h
      · exact Or.inl h
      · exact Or.inr ⟨r, Or.inl rfl, h⟩
      · obtain ⟨r', hr', hk⟩ := h
        exact Or.inr ⟨r', Or.inr hr', hk⟩
    · intro h
      rcases h with h | ⟨r', hr', hk⟩
      · exact Or.inl (Or.inl h)
      · rcases hr' with hr' | hr'
        · subst hr'
          exact Or.inl (Or.inr hk)
        · exact Or.inr ⟨r', hr', hk⟩

theorem nodup_poolKeys_foldl (results : List (A × ImpactDistrib)) :
    ∀ (st : RunState A), (poolKeys st.aggregation_pools).Nodup →
    (poolKeys ((results.foldl (processAsset data_provider aggregator currency year sims u)
        st).aggregation_pools)).Nodup := by
  induction results with
  | nil => intro st h; exact h
  | cons r rest ih =>
    intro st h
    simp only [List.foldl_cons]
    apply ih
    rw [processAsset_eq]
    exact nodup_poolKeys_foldlKeys sims _ _ _ h

/-! ### `runState` corollaries -/

theorem runState_sizes (results : List (A × ImpactDistrib)) :
    ∀ kv ∈ (runState results data_provider aggregator currency year sims u).aggregation_pools,
      (kv.2 : List ℚ).length = sims :=
  foldl_sizes data_provider aggregator currency year sims u results ⟨[], 0, []⟩ (by simp)

theorem poolGetD_runState (results : List (A × ImpactDistrib)) (k : String) (j : Nat)
    (hj : j < sims) :
    poolGetD (runState results data_provider aggregator currency year sims u).aggregation_pools
        k j =
      contribSum data_provider aggregator currency year sims u k j 0 results := by
  unfold runState
  rw [poolGetD_foldl data_provider aggregator currency year sims u k j hj results ⟨[], 0, []⟩
    (by simp)]
  simp [poolGetD, poolLookup]

theorem runState_pos (results : List (A × ImpactDistrib)) :
    (runState results data_provider aggregator currency year sims u).pos =
      results.length * sims := by
  unfold runState
  rw [pos_foldl]
  simp

theorem runState_calls (results : List (A × ImpactDistrib)) :
    (runState results data_provider aggregator currency year sims u).calls =
      results.map (fun r => (getTrans data_provider currency year r.1 r.2).2) := by
  unfold runState
  rw [calls_foldl]
  simp

theorem mem_poolKeys_runState (results : List (A × ImpactDistrib)) (k : String) :
    k ∈ poolKeys (runState results data_provider aggregator currency year sims
        u).aggregation_pools ↔
      ∃ r ∈ results, k ∈ aggregator r.1 r.2 := by
  unfold runState
  rw [mem_poolKeys_foldl]
  simp [poolKeys]

theorem nodup_poolKeys_runState (results : List (A × ImpactDistrib)) :
    (poolKeys (runState results data_provider aggregator currency year sims
        u).aggregation_pools).Nodup := by
  unfold runState
  exact nodup_poolKeys_foldl data_provider aggregator currency year sims u results ⟨[], 0, []⟩
    (by simp [poolKeys])

/-! ### Spec-side pool sums -/

/-- `n • v` element-wise. -/
def nsmulVec (n : Nat) (v : List ℚ) : List ℚ := v.map fun x => (n : ℚ) * x

/-- The element-wise sum, over the assets of `results` (draws starting at
stream position `c`), of each asset's loss vector counted once per occurrence
of `k` in its aggregation-key list, starting from a zero vector of length
`sims`. -/
def specPoolCounted (k : String) : Nat → List (A × ImpactDistrib) → List ℚ
  | _, [] => zeros sims
  | c, r :: rest =>
      addVec
        (nsmulVec ((aggregator r.1 r.2).count k)
          (lossVecAt data_provider currency year sims u c r))
        (specPoolCounted k (c + sims) rest)

/-- Follows the spec words of C1: the element-wise sum of the per-asset
sampled loss vectors of every asset keyed into the pool, each such asset
contributing exactly once, starting from a zero vector of length `sims`. -/
def specPoolOnce (k : String) : Nat → List (A × ImpactDistrib) → List ℚ
  | _, [] => zeros sims
  | c, r :: rest =>
      if k ∈ aggregator r.1 r.2 then
        addVec (lossVecAt data_provider currency year sims u c r)
          (specPoolOnce k (c + sims) rest)
      else specPoolOnce k (c + sims) rest

theorem nsmulVec_length (n : Nat) (v : List ℚ) : (nsmulVec n v).length = v.length := by
  simp [nsmulVec]

theorem nsmulVec_getD (n : Nat) (v : List ℚ) (j : Nat) (hj : j < v.length) :
    (nsmulVec n v).getD j 0 = (n : ℚ) * v.getD j 0 := by
  unfold nsmulVec
  rw [List.getD_eq_getElem?_getD, List.getElem?_map, List.getD_eq_getElem?_getD,
    List.getElem?_eq_getElem hj]
  rfl

theorem specPoolCounted_length (k : String) (c : Nat) (results : List (A × ImpactDistrib)) :
    (specPoolCounted data_provider aggregator currency year sims u k c results).length =
      sims := by
  induction results generalizing c with
  | nil => simp [specPoolCounted, zeros_length]
  | cons r rest ih =>
    simp only [specPoolCounted, addVec_length, nsmulVec_length, lossVecAt_length, ih]
    simp

theorem specPoolCounted_getD (k : String) (j : Nat) (hj : j < sims) (c : Nat)
    (results : List (A × ImpactDistrib)) :
    (specPoolCounted data_provider aggregator currency year sims u k c results).getD j 0 =
      contribSum data_provider aggregator currency year sims u k j c results := by
  induction results generalizing c with
  | nil =>
    show (zeros sims).getD j 0 = (0 : ℚ)
    exact zeros_getD sims j
  | cons r rest ih =>
    simp only [specPoolCounted, contribSum]
    rw [addVec_getD _ _ _
        (by rw [nsmulVec_length, lossVecAt_length]; exact hj)
        (by rw [specPoolCounted_length]; exact hj),
      nsmulVec_getD _ _ _ (by rw [lossVecAt_length]; exact hj), ih]

/-! ### Stream agreement -/

theorem processAsset_stream_agree (u1 u2 : Nat → ℚ) (st : RunState A) (r : A × ImpactDistrib)
    (h : ∀ i, st.pos ≤ i → i < st.pos + sims → u1 i = u2 i) :
    processAsset data_provider aggregator currency year sims u1 st r =
      processAsset data_provider aggregator currency year sims u2 st r := by
  have hmap : ((List.range sims).map fun j => u1 (st.pos + j)) =
      (List.range sims).map fun j => u2 (st.pos + j) := by
    apply List.map_congr_left
    intro j hj
    rw [List.mem_range] at hj
    exact h _ (Nat.le_add_right _ _) (by omega)
  simp only [processAsset, uncorrelated_samples, hmap]

theorem foldl_stream_agree (u1 u2 : Nat → ℚ) (results : List (A × ImpactDistrib)) :
    ∀ (st : RunState A),
    (∀ i, st.pos ≤ i → i < st.pos + results.length * sims → u1 i = u2 i) →
    results.foldl (processAsset data_provider aggregator currency year sims u1) st =
      results.foldl (processAsset data_provider aggregator currency year sims u2) st := by
  induction results with
  | nil => intro st _; rfl
  | cons r rest ih =>
    intro st h
    simp only [List.foldl_cons]
    have hmul : (rest.length + 1) * sims = rest.length * sims + sims := by ring
    rw [processAsset_stream_agree data_provider aggregator currency year sims u1 u2 st r
      (fun i h1 h2 => h i h1 (by simp only [List.length_cons]; omega))]
    apply ih
    intro i h1 h2
    have hpos : (processAsset data_provider aggregator currency year sims u2 st r).pos =
        st.pos + sims := by
      rw [processAsset_eq]
    rw [hpos] at h1 h2
    exact h i (by omega) (by simp only [List.length_cons]; omega)

end Run

/-! ### Success and failure of the statistics stage -/

theorem getDq_eq_getElem (l : List ℚ) (j : Nat) (h : j < l.length) : l.getD j 0 = l[j] := by
  rw [List.getD_eq_getElem?_getD, List.getElem?_eq_getElem h]
  rfl

theorem percentiles_in_range :
    (percentiles.all fun q => decide (0 ≤ q) && decide (q ≤ 100)) = true := by
  with_unfolding_all decide

theorem np_percentile_of_ne_nil (v : List ℚ) (hv : v ≠ []) :
    np_percentile v percentiles =
      Except.ok (percentiles.map fun q =>
        interpAt (List.insertionSort (fun a b => a ≤ b) v)
          (q / 100 * ((v.length : ℚ) - 1))) := by
  unfold np_percentile
  rw [if_neg (by simp [hv]), if_pos percentiles_in_range]

theorem computeMeasures_ok (ps : List (String × List ℚ))
    (h : ∀ kv ∈ ps, (kv.2 : List ℚ) ≠ []) :
    ∃ ms, computeMeasures ps = Except.ok ms := by
  induction ps with
  | nil => exact ⟨[], rfl⟩
  | cons kv rest ih =>
    obtain ⟨k, v⟩ := kv
    obtain ⟨ms, hms⟩ := ih fun kv hkv => h kv (List.mem_cons_of_mem _ hkv)
    refine ⟨(k, ⟨percentiles,
      percentiles.map fun q =>
        interpAt (List.insertionSort (fun a b => a ≤ b) v) (q / 100 * ((v.length : ℚ) - 1)),
      np_mean v⟩) :: ms, ?_⟩
    simp only [computeMeasures]
    rw [np_percentile_of_ne_nil v (h (k, v) (List.mem_cons_self _ _)), hms]

theorem computeMeasures_error_of_head_nil (k : String) (ps : List (String × List ℚ)) :
    computeMeasures ((k, ([] : List ℚ)) :: ps) =
      Except.error "cannot do a non-empty take from an empty axes" := by
  simp only [computeMeasures]
  rfl

/-! ### Order facts about `floorIdx` -/

theorem natDiv_lt_div_add_one_mul (a b : Nat) (hb : 0 < b) : a < (a / b + 1) * b := by
  have h1 := Nat.div_add_mod a b
  have h2 := Nat.mod_lt a hb
  calc a = b * (a / b) + a % b := h1.symm
  _ < b * (a / b) + b := by omega
  _ = (a / b + 1) * b := by ring

theorem num_toNat_cast (q : ℚ) (h : 0 ≤ q) : ((q.num.toNat : ℕ) : ℚ) = (q.num : ℚ) := by
  have hnum : 0 ≤ q.num := Rat.num_nonneg.mpr h
  exact_mod_cast congrArg (fun z : ℤ => (z : ℚ)) (Int.toNat_of_nonneg hnum)

theorem self_eq_toNat_div_den (q : ℚ) (h : 0 ≤ q) :
    q = ((q.num.toNat : ℕ) : ℚ) / ((q.den : ℕ) : ℚ) := by
  rw [num_toNat_cast q h]
  exact (Rat.num_div_den q).symm

theorem den_cast_pos (q : ℚ) : (0 : ℚ) < ((q.den : ℕ) : ℚ) := by
  exact_mod_cast q.den_pos

theorem floorIdx_cast_le (q : ℚ) (h : 0 ≤ q) : (floorIdx q : ℚ) ≤ q := by
  conv_rhs => rw [self_eq_toNat_div_den q h]
  unfold floorIdx
  rw [le_div_iff₀ (den_cast_pos q)]
  exact_mod_cast Nat.div_mul_le_self q.num.toNat q.den

theorem lt_floorIdx_add_one (q : ℚ) (h : 0 ≤ q) : q < (floorIdx q : ℚ) + 1 := by
  conv_lhs => rw [self_eq_toNat_div_den q h]
  unfold floorIdx
  rw [div_lt_iff₀ (den_cast_pos q)]
  exact_mod_cast natDiv_lt_div_add_one_mul q.num.toNat q.den q.den_pos

theorem floorIdx_mono (q1 q2 : ℚ) (h0 : 0 ≤ q1) (h : q1 ≤ q2) :
    floorIdx q1 ≤ floorIdx q2 := by
  have h02 : 0 ≤ q2 := le_trans h0 h
  have hlt : (floorIdx q1 : ℚ) < (floorIdx q2 : ℚ) + 1 :=
    lt_of_le_of_lt (le_trans (floorIdx_cast_le q1 h0) h) (lt_floorIdx_add_one q2 h02)
  have : (floorIdx q1 : ℚ) < ((floorIdx q2 + 1 : ℕ) : ℚ) := by push_cast; exact hlt
  have hn : floorIdx q1 < floorIdx q2 + 1 := by exact_mod_cast this
  omega

theorem floorIdx_le_of_le_natCast (q : ℚ) (n : Nat) (h0 : 0 ≤ q) (h : q ≤ (n : ℚ)) :
    floorIdx q ≤ n := by
  have : (floorIdx q : ℚ) ≤ (n : ℚ) := le_trans (floorIdx_cast_le q h0) h
  exact_mod_cast this

/-! ### Monotonicity of linear interpolation on sorted data -/

theorem getDq_eq_getElem' (l : List ℚ) (j : Nat) (d : ℚ) (h : j < l.length) :
    l.getD j d = l[j] := by
  rw [List.getD_eq_getElem?_getD, List.getElem?_eq_getElem h]
  rfl

theorem sorted_getD_mono (s : List ℚ) (hs : List.Sorted (fun a b => a ≤ b) s) (a b : Nat)
    (hab : a ≤ b) (hb : b < s.length) : s.getD a 0 ≤ s.getD b 0 := by
  have ha : a < s.length := lt_of_le_of_lt hab hb
  rw [getDq_eq_getElem' s a 0 ha, getDq_eq_getElem' s b 0 hb]
  rcases Nat.eq_or_lt_of_le hab with heq | hlt
  · subst heq
    exact le_refl _
  · have := hs.rel_get_of_lt (a := ⟨a, ha⟩) (b := ⟨b, hb⟩) hlt
    simpa using this

/-- The upper interpolation node at position `k`: the next element when it
exists, else the element at `k` itself. -/
def nodeAbove (s : List ℚ) (k : Nat) : ℚ := s.getD (k + 1) (s.getD k 0)

theorem getD_le_nodeAbove (s : List ℚ) (hs : List.Sorted (fun a b => a ≤ b) s) (k : Nat)
    (hk : k < s.length) : s.getD k 0 ≤ nodeAbove s k := by
  unfold nodeAbove
  by_cases h : k + 1 < s.length
  · rw [getDq_eq_getElem' s (k + 1) _ h]
    rw [← getDq_eq_getElem' s (k + 1) 0 h]
    exact sorted_getD_mono s hs k (k + 1) (Nat.le_succ k) h
  · rw [List.getD_eq_default s (s.getD k 0) (show s.length ≤ k + 1 by omega)]

theorem nodeAbove_le_getD (s : List ℚ) (hs : List.Sorted (fun a b => a ≤ b) s) (k l : Nat)
    (hkl : k + 1 ≤ l) (hl : l < s.length) : nodeAbove s k ≤ s.getD l 0 := by
  unfold nodeAbove
  have hk1 : k + 1 < s.length := lt_of_le_of_lt hkl hl
  rw [getDq_eq_getElem' s (k + 1) _ hk1, ← getDq_eq_getElem' s (k + 1) 0 hk1]
  exact sorted_getD_mono s hs (k + 1) l hkl hl

theorem interpAt_ge_base (s : List ℚ) (hs : List.Sorted (fun a b => a ≤ b) s) (idx : ℚ)
    (h0 : 0 ≤ idx) (hk : floorIdx idx < s.length) :
    s.getD (floorIdx idx) 0 ≤ interpAt s idx := by
  unfold interpAt
  have h1 : 0 ≤ idx - (floorIdx idx : ℚ) := by
    have := floorIdx_cast_le idx h0
    linarith
  have h2 : (0 : ℚ) ≤ s.getD (floorIdx idx + 1) (s.getD (floorIdx idx) 0) -
      s.getD (floorIdx idx) 0 := by
    have h3 := getD_le_nodeAbove s hs (floorIdx idx) hk
    unfold nodeAbove at h3
    linarith
  nlinarith

theorem interpAt_le_nodeAbove (s : List ℚ) (hs : List.Sorted (fun a b => a ≤ b) s) (idx : ℚ)
    (h0 : 0 ≤ idx) (hk : floorIdx idx < s.length) :
    interpAt s idx ≤ nodeAbove s (floorIdx idx) := by
  unfold interpAt nodeAbove
  have h1 : idx - (floorIdx idx : ℚ) ≤ 1 := by
    have := lt_floorIdx_add_one idx h0
    linarith
  have h1' : 0 ≤ idx - (floorIdx idx : ℚ) := by
    have := floorIdx_cast_le idx h0
    linarith
  have h2 : (0 : ℚ) ≤ s.getD (floorIdx idx + 1) (s.getD (floorIdx idx) 0) -
      s.getD (floorIdx idx) 0 := by
    have h3 := getD_le_nodeAbove s hs (floorIdx idx) hk
    unfold nodeAbove at h3
    linarith
  nlinarith

theorem interpAt_mono (s : List ℚ) (hs : List.Sorted (fun a b => a ≤ b) s) (hne : s ≠ [])
    (idx1 idx2 : ℚ) (h0 : 0 ≤ idx1) (h12 : idx1 ≤ idx2)
    (hub : idx2 ≤ (s.length : ℚ) - 1) : interpAt s idx1 ≤ interpAt s idx2 := by
  have h02 : 0 ≤ idx2 := le_trans h0 h12
  have hlen1 : 1 ≤ s.length := by
    cases s with
    | nil => exact absurd rfl hne
    | cons a t => simp
  have hk2 : floorIdx idx2 < s.length := by
    have hcast : idx2 ≤ ((s.length - 1 : ℕ) : ℚ) := by
      rw [Nat.cast_sub hlen1]
      simpa using hub
    have := floorIdx_le_of_le_natCast idx2 (s.length - 1) h02 hcast
    omega
  have hk12 : floorIdx idx1 ≤ floorIdx idx2 := floorIdx_mono idx1 idx2 h0 h12
  have hk1 : floorIdx idx1 < s.length := lt_of_le_of_lt hk12 hk2
  rcases Nat.eq_or_lt_of_le hk12 with heq | hlt
  · unfold interpAt
    rw [← heq]
    have hslope : (0 : ℚ) ≤
        s.getD (floorIdx idx1 + 1) (s.getD (floorIdx idx1) 0) - s.getD (floorIdx idx1) 0 := by
      have := getD_le_nodeAbove s hs (floorIdx idx1) hk1
      unfold nodeAbove at this
      linarith
    have hquot : idx1 - (floorIdx idx1 : ℚ) ≤ idx2 - (floorIdx idx1 : ℚ) := by linarith
    nlinarith
  · calc interpAt s idx1 ≤ nodeAbove s (floorIdx idx1) :=
        interpAt_le_nodeAbove s hs idx1 h0 hk1
    _ ≤ s.getD (floorIdx idx2) 0 := nodeAbove_le_getD s hs (floorIdx idx1) (floorIdx idx2)
        hlt hk2
    _ ≤ interpAt s idx2 := interpAt_ge_base s hs idx2 h02 hk2

/-! ### Properties of the returned measures -/

theorem np_percentile_ok_inv (v : List ℚ) (pv : List ℚ)
    (h : np_percentile v percentiles = Except.ok pv) :
    v ≠ [] ∧ pv = percentiles.map fun q =>
      interpAt (List.insertionSort (fun a b => a ≤ b) v)
        (q / 100 * ((v.length : ℚ) - 1)) := by
  by_cases hemp : v.isEmpty
  · unfold np_percentile at h
    rw [if_pos hemp] at h
    exact Except.noConfusion h
  · unfold np_percentile at h
    rw [if_neg hemp, if_pos percentiles_in_range] at h
    have hne : v ≠ [] := by simpa [List.isEmpty_iff] using hemp
    exact ⟨hne, (Except.ok.inj h).symm⟩

theorem percentiles_chain_range :
    List.Chain' (fun q1 q2 : ℚ => 0 ≤ q1 ∧ q1 ≤ q2 ∧ q2 ≤ 100) percentiles := by
  simp only [percentiles, List.chain'_cons, List.chain'_singleton]
  norm_num

theorem np_percentile_values_chain (v : List ℚ) (pv : List ℚ)
    (h : np_percentile v percentiles = Except.ok pv) :
    List.Chain' (fun a b => a ≤ b) pv := by
  obtain ⟨hne, hpv⟩ := np_percentile_ok_inv v pv h
  subst hpv
  rw [List.chain'_map]
  apply percentiles_chain_range.imp
  intro q1 q2 hq
  obtain ⟨hq0, hq12, hq100⟩ := hq
  have hsorted : List.Sorted (fun a b : ℚ => a ≤ b)
      (List.insertionSort (fun a b => a ≤ b) v) :=
    List.sorted_insertionSort (fun a b => a ≤ b) v
  have hlen : (List.insertionSort (fun a b => a ≤ b) v).length = v.length :=
    List.length_insertionSort (fun a b => a ≤ b) v
  have hvpos : 1 ≤ v.length := by
    cases v with
    | nil => exact absurd rfl hne
    | cons a t => simp
  have hone : (1 : ℚ) ≤ (v.length : ℚ) := by exact_mod_cast hvpos
  have hsne : List.insertionSort (fun a b => a ≤ b) v ≠ [] := by
    intro hcon
    rw [hcon] at hlen
    simp at hlen
    omega
  apply interpAt_mono _ hsorted hsne
  · apply mul_nonneg (div_nonneg hq0 (by norm_num))
    linarith
  · apply mul_le_mul_of_nonneg_right _ (by linarith : (0 : ℚ) ≤ (v.length : ℚ) - 1)
    linarith
  · rw [hlen]
    have h1 : q2 / 100 ≤ 1 := by linarith
    nlinarith

theorem computeMeasures_spec (ps : List (String × List ℚ)) :
    (poolKeys ps).Nodup → ∀ ms, computeMeasures ps = Except.ok ms →
    ∀ km ∈ ms,
      (km.2 : PoolMeasure).percentiles = percentiles ∧
      (km.2 : PoolMeasure).percentile_values.length = percentiles.length ∧
      List.Chain' (fun a b => a ≤ b) (km.2 : PoolMeasure).percentile_values ∧
      ∃ v, poolLookup ps km.1 = some v ∧
        (km.2 : PoolMeasure).mean = v.sum / (v.length : ℚ) := by
  induction ps with
  | nil =>
    intro _ ms hms km hkm
    simp only [computeMeasures] at hms
    rw [← Except.ok.inj hms] at hkm
    simp at hkm
  | cons kv rest ih =>
    obtain ⟨k, v⟩ := kv
    intro hnd ms hms km hkm
    simp only [poolKeys, List.map_cons, List.nodup_cons] at hnd
    simp only [computeMeasures] at hms
    cases hp : np_percentile v percentiles with
    | error e => rw [hp] at hms; exact Except.noConfusion hms
    | ok pv =>
      rw [hp] at hms
      cases hr : computeMeasures rest with
      | error e => rw [hr] at hms; exact Except.noConfusion hms
      | ok ms' =>
        rw [hr] at hms
        rw [← Except.ok.inj hms] at hkm
        rcases List.mem_cons.mp hkm with hhead | htail
        · subst hhead
          obtain ⟨hne, hpv⟩ := np_percentile_ok_inv v pv hp
          refine ⟨rfl, ?_, np_percentile_values_chain v pv hp, v, ?_, rfl⟩
          · rw [hpv, List.length_map]
          · simp [poolLookup]
        · obtain ⟨hperc, hlen2, hchain, w, hw, hmean⟩ :=
            ih hnd.2 ms' hr km htail
          refine ⟨hperc, hlen2, hchain, w, ?_, hmean⟩
          have hmem : km.1 ∈ poolKeys rest := by
            by_contra hcon
            rw [← poolLookup_eq_none_iff] at hcon
            rw [hcon] at hw
            exact Option.noConfusion hw
          have hne : ¬k = km.1 := fun hcon => hnd.1 (hcon ▸ hmem)
          simp only [poolLookup, if_neg hne]
          exact hw

/-! ### Sums of pool vectors (for the root-pool identity) -/

/-- Element-wise sum of a list of vectors, starting from `np.zeros(sims)`. -/
def sumVecs (sims : Nat) (l : List (List ℚ)) : List ℚ := l.foldr addVec (zeros sims)

theorem sumVecs_length (sims : Nat) (l : List (List ℚ))
    (h : ∀ v ∈ l, (v : List ℚ).length = sims) : (sumVecs sims l).length = sims := by
  induction l with
  | nil => exact zeros_length sims
  | cons v t ih =>
    simp only [sumVecs, List.foldr_cons]
    rw [addVec_length, show List.foldr addVec (zeros sims) t = sumVecs sims t from rfl,
      ih fun w hw => h w (List.mem_cons_of_mem _ hw), h v (List.mem_cons_self _ _)]
    simp

theorem sumVecs_getD (sims : Nat) (l : List (List ℚ)) (j : Nat) (hj : j < sims)
    (h : ∀ v ∈ l, (v : List ℚ).length = sims) :
    (sumVecs sims l).getD j 0 = (l.map fun v => v.getD j 0).sum := by
  induction l with
  | nil =>
    simp only [sumVecs, List.foldr_nil, List.map_nil, List.sum_nil]
    exact zeros_getD sims j
  | cons v t ih =>
    simp only [sumVecs, List.foldr_cons, List.map_cons, List.sum_cons]
    rw [addVec_getD _ _ _
        (by rw [h v (List.mem_cons_self _ _)]; exact hj)
        (by rw [show List.foldr addVec (zeros sims) t = sumVecs sims t from rfl,
              sumVecs_length sims t fun w hw => h w (List.mem_cons_of_mem _ hw)]
            exact hj)]
    rw [show (List.foldr addVec (zeros sims) t) = sumVecs sims t from rfl,
      ih fun w hw => h w (List.mem_cons_of_mem _ hw)]

theorem sum_map_add {α : Type} (l : List α) (f g : α → ℚ) :
    (l.map fun x => f x + g x).sum = (l.map f).sum + (l.map g).sum := by
  induction l with
  | nil => simp
  | cons a t ih =>
    simp only [List.map_cons, List.sum_cons, ih]
    ring

theorem sum_single_key (ks : List String) (e : String) (f : String → ℚ) (x : ℚ) :
    ks.Nodup → e ∈ ks → (∀ k ∈ ks, k ≠ e → f k = 0) → f e = x → (ks.map f).sum = x := by
  induction ks with
  | nil => intro _ he; simp at he
  | cons k t ih =>
    intro hnd he hf hfe
    rw [List.nodup_cons] at hnd
    simp only [List.map_cons, List.sum_cons]
    rcases List.mem_cons.mp he with he1 | he1
    · subst he1
      have hzero : (t.map f).sum = 0 := by
        apply List.sum_eq_zero
        intro y hy
        obtain ⟨k', hk', hfy⟩ := List.mem_map.mp hy
        rw [← hfy]
        exact hf k' (List.mem_cons_of_mem _ hk') fun hcon => hnd.1 (hcon ▸ hk')
      rw [hzero, hfe, add_zero]
    · have hk0 : f k = 0 := hf k (List.mem_cons_self _ _) fun hcon => hnd.1 (hcon ▸ he1)
      rw [hk0, zero_add]
      exact ih hnd.2 he1 (fun k' hk' => hf k' (List.mem_cons_of_mem _ hk')) hfe

theorem count_default_keys_ne_root {A : Type} (a : A) (imp : ImpactDistrib) (k : String)
    (hk : k ≠ "root") :
    (DefaultAggregator.get_aggregation_keys a imp).count k =
      if k = imp.event_type then 1 else 0 := by
  unfold DefaultAggregator.get_aggregation_keys
  rw [List.count_cons, List.count_cons, List.count_nil,
    if_neg (by simp only [beq_iff_eq]; exact fun hcon => hk hcon.symm)]
  by_cases h : k = imp.event_type
  · rw [if_pos (by simp only [beq_iff_eq]; exact h.symm), if_pos h]
  · rw [if_neg (by simp only [beq_iff_eq]; exact fun hcon => h hcon.symm), if_neg h]

theorem count_default_keys_root {A : Type} (a : A) (imp : ImpactDistrib)
    (h : imp.event_type ≠ "root") :
    (DefaultAggregator.get_aggregation_keys a imp).count "root" = 1 := by
  unfold DefaultAggregator.get_aggregation_keys
  rw [List.count_cons, List.count_cons, List.count_nil,
    if_pos (by simp), if_neg (by simp only [beq_iff_eq]; exact h)]

theorem sum_contrib_eq_root {A : Type} (data_provider : FinancialDataProvider A)
    (currency : String) (year : Int) (sims : Nat) (u : Nat → ℚ) (j : Nat)
    (ks : List String) (hnd : ks.Nodup) (hks : "root" ∉ ks) :
    ∀ (results : List (A × ImpactDistrib)) (c : Nat),
      (∀ r ∈ results, (r.2 : ImpactDistrib).event_type ≠ "root" ∧
        (r.2 : ImpactDistrib).event_type ∈ ks) →
      (ks.map fun k => contribSum data_provider DefaultAggregator.get_aggregation_keys
        currency year sims u k j c results).sum =
      contribSum data_provider DefaultAggregator.get_aggregation_keys
        currency year sims u "root" j c results := by
  intro results
  induction results with
  | nil =>
    intro c _
    simp [contribSum]
  | cons r rest ih =>
    intro c hall
    obtain ⟨hne, hmem⟩ := hall r (List.mem_cons_self _ _)
    simp only [contribSum]
    rw [sum_map_add]
    have hfirst : (ks.map fun k =>
        ((DefaultAggregator.get_aggregation_keys r.1 r.2).count k : ℚ) *
          (lossVecAt data_provider currency year sims u c r).getD j 0).sum =
        (lossVecAt data_provider currency year sims u c r).getD j 0 := by
      apply sum_single_key ks r.2.event_type _ _ hnd hmem
      · intro k hk hkne
        have hkroot : k ≠ "root" := fun hcon => hks (hcon ▸ hk)
        rw [count_default_keys_ne_root r.1 r.2 k hkroot, if_neg hkne]
        simp
      · have hroot : (r.2 : ImpactDistrib).event_type ≠ "root" := hne
        rw [count_default_keys_ne_root r.1 r.2 r.2.event_type hroot, if_pos rfl]
        simp
    rw [hfirst, ih (c + sims) fun r' hr' => hall r' (List.mem_cons_of_mem _ hr')]
    rw [count_default_keys_root r.1 r.2 hne]
    simp

/-! ### Projections of the entry point -/

theorem gfi_fst {A : Type} (results : List (A × ImpactDistrib))
    (data_provider : FinancialDataProvider A) (aggregator : A → ImpactDistrib → List String)
    (currency : String) (year : Int) (sims : Nat) (u : Nat → ℚ) :
    (get_financial_impacts results data_provider aggregator currency year sims u).1 =
      computeMeasures
        (runState results data_provider aggregator currency year sims u).aggregation_pools :=
  rfl

theorem gfi_snd {A : Type} (results : List (A × ImpactDistrib))
    (data_provider : FinancialDataProvider A) (aggregator : A → ImpactDistrib → List String)
    (currency : String) (year : Int) (sims : Nat) (u : Nat → ℚ) :
    (get_financial_impacts results data_provider aggregator currency year sims u).2 =
      (runState results data_provider aggregator currency year sims u).calls :=
  rfl

/-! ### Concrete test fixtures -/

/-- A provider valuing every asset at 2 and every cashflow aggregate at 3. -/
def dpA : FinancialDataProvider Nat := ⟨fun _ _ => 2, fun _ _ _ _ => 3⟩

/-- A damage-type impact with identity inverse exceedance curve. -/
def impA : ImpactDistrib := ⟨ImpactType.damage, "Inundation", fun x => x⟩

/-- A disruption-type impact. -/
def impB : ImpactDistrib := ⟨ImpactType.disruption, "Wind", fun x => x⟩

/-- A damage-type impact whose hazard event class is named `root`. -/
def impR : ImpactDistrib := ⟨ImpactType.damage, "root", fun x => x⟩

/-- A constant uniform draw stream. -/
def uHalf : Nat → ℚ := fun _ => 1 / 2

/-- A draw stream agreeing with `uHalf` on the first two draws only. -/
def uAlt : Nat → ℚ := fun i => if i < 2 then 1 / 2 else 1 / 3

/-- A constant draw stream of thirds. -/
def uThird : Nat → ℚ := fun _ => 1 / 3

/-- A keying policy returning the same key twice. -/
def dupAgg : Nat → ImpactDistrib → List String := fun _ _ => ["p", "p"]

/-- A keying policy returning the root key twice. -/
def dupRootAgg : Nat → ImpactDistrib → List String := fun _ _ => ["root", "root"]

/-! ### Claims -/

/-- C2: for every asset processed by `get_financial_impacts`, a damage-type
impact obtains its exposure scalar from `data_provider.get_asset_value(asset,
currency)` and a disruption-type impact from
`data_provider.get_asset_aggregate_cashflows` with period start January 1 and
period end December 31 of the given year, in the requested currency; the
recorded provider-call trace of the run lists exactly these calls, one per
asset. -/
theorem claim2_exposure_branching {A : Type} (data_provider : FinancialDataProvider A)
    (aggregator : A → ImpactDistrib → List String) (currency : String) (year : Int)
    (sims : Nat) (u : Nat → ℚ) :
    (∀ (asset : A) (impact : ImpactDistrib),
      (impact.impact_type = ImpactType.damage →
        getTrans data_provider currency year asset impact =
          (data_provider.get_asset_value asset currency,
            ProviderCall.assetValue asset currency)) ∧
      (impact.impact_type = ImpactType.disruption →
        getTrans data_provider currency year asset impact =
          (data_provider.get_asset_aggregate_cashflows asset ⟨year, 1, 1⟩ ⟨year, 12, 31⟩
              currency,
            ProviderCall.aggregateCashflows asset ⟨year, 1, 1⟩ ⟨year, 12, 31⟩ currency))) ∧
    (∀ results : List (A × ImpactDistrib),
      (get_financial_impacts results data_provider aggregator currency year sims u).2 =
        results.map fun r => (getTrans data_provider currency year r.1 r.2).2) := by
  constructor
  · intro asset impact
    constructor
    · intro hd
      unfold getTrans
      rw [if_pos hd]
    · intro hd
      unfold getTrans
      rw [if_neg (by rw [hd]; simp)]
  · intro results
    rw [gfi_snd]
    exact runState_calls data_provider aggregator currency year sims u results

/-- Witness for C2 at a concrete damage asset and a concrete disruption
asset. -/
theorem claim2_exposure_branching_witness :
    getTrans dpA "EUR" 2030 0 impA = (2, ProviderCall.assetValue 0 "EUR") ∧
    getTrans dpA "EUR" 2030 0 impB =
      (3, ProviderCall.aggregateCashflows 0 ⟨2030, 1, 1⟩ ⟨2030, 12, 31⟩ "EUR") := by
  have h := claim2_exposure_branching dpA DefaultAggregator.get_aggregation_keys "EUR" 2030 1
    uHalf
  exact ⟨(h.1 0 impA).1 rfl, (h.1 0 impB).2 rfl⟩

/-- Counterexample to C4: with `sims = 0` (hence `sims ≤ 0`) the call does not
fail at entry: with one damage asset the exposure lookup is still performed
(the provider-call trace is non-empty), and with no assets the call returns
successfully. -/
theorem claim4_counterexample :
    (get_financial_impacts [(0, impA)] dpA DefaultAggregator.get_aggregation_keys "EUR" 2030 0
        uHalf).2 = [ProviderCall.assetValue 0 "EUR"] ∧
    (get_financial_impacts ([] : List (Nat × ImpactDistrib)) dpA
        DefaultAggregator.get_aggregation_keys "EUR" 2030 0 uHalf).1 = Except.ok [] := by
  constructor <;> with_unfolding_all decide

/-- C4 (amended): `get_financial_impacts` performs no validation of `sims` at
entry.  With `sims = 0`, every asset's exposure lookup is still performed (one
provider call per asset); with no assets the run completes successfully; and
when some asset has at least one aggregation key, the failure arises only at
the statistics stage, as `np.percentile` of an empty pool vector. -/
theorem claim4_sims_not_validated {A : Type} (data_provider : FinancialDataProvider A)
    (aggregator : A → ImpactDistrib → List String) (currency : String) (year : Int)
    (u : Nat → ℚ) :
    (∀ results : List (A × ImpactDistrib),
      (runState results data_provider aggregator currency year 0 u).calls.length =
        results.length) ∧
    ((get_financial_impacts ([] : List (A × ImpactDistrib)) data_provider aggregator currency
        year 0 u).1 = Except.ok []) ∧
    (∀ results : List (A × ImpactDistrib), (∃ r ∈ results, aggregator r.1 r.2 ≠ []) →
      (get_financial_impacts results data_provider aggregator currency year 0 u).1 =
        Except.error "cannot do a non-empty take from an empty axes") := by
  refine ⟨?_, rfl, ?_⟩
  · intro results
    rw [runState_calls]
    exact List.length_map results _
  · intro results hex
    obtain ⟨r, hr, hkeys⟩ := hex
    obtain ⟨k, hk⟩ := List.exists_mem_of_ne_nil _ hkeys
    have hmem : k ∈ poolKeys
        (runState results data_provider aggregator currency year 0 u).aggregation_pools :=
      (mem_poolKeys_runState data_provider aggregator currency year 0 u results k).mpr
        ⟨r, hr, hk⟩
    rw [gfi_fst]
    cases hps : (runState results data_provider aggregator currency year 0
        u).aggregation_pools with
    | nil =>
      rw [hps] at hmem
      simp [poolKeys] at hmem
    | cons kv rest =>
      obtain ⟨k0, v0⟩ := kv
      have hsz : v0.length = 0 :=
        runState_sizes data_provider aggregator currency year 0 u results (k0, v0)
          (hps ▸ List.mem_cons_self _ _)
      have hnil : v0 = [] := List.eq_nil_of_length_eq_zero hsz
      rw [hnil]
      exact computeMeasures_error_of_head_nil k0 rest

/-- Witness for C4 (amended) at a concrete one-asset run with `sims = 0`. -/
theorem claim4_sims_not_validated_witness :
    (runState [(0, impA)] dpA DefaultAggregator.get_aggregation_keys "EUR" 2030 0
        uHalf).calls.length = 1 ∧
    (get_financial_impacts ([] : List (Nat × ImpactDistrib)) dpA
        DefaultAggregator.get_aggregation_keys "EUR" 2030 0 uHalf).1 = Except.ok [] ∧
    (get_financial_impacts [(0, impA)] dpA DefaultAggregator.get_aggregation_keys "EUR" 2030 0
        uHalf).1 = Except.error "cannot do a non-empty take from an empty axes" := by
  have h := claim4_sims_not_validated (A := Nat) dpA DefaultAggregator.get_aggregation_keys
    "EUR" 2030 uHalf
  exact ⟨h.1 [(0, impA)], h.2.1,
    h.2.2 [(0, impA)] ⟨(0, impA), List.mem_cons_self _ _, by with_unfolding_all decide⟩⟩

/-- C6: the sampled loss vector of an asset is computed exactly once — one
draw of `sims` samples scaled by the exposure scalar — and that same single
vector is the one accumulated into the pool of every key of the asset; the
generator advances by exactly `sims` positions per asset regardless of how
many keys the asset has (so the loss is never resampled per key), and over a
whole run exactly `results.length * sims` draws are consumed. -/
theorem claim6_loss_drawn_once {A : Type} (data_provider : FinancialDataProvider A)
    (aggregator : A → ImpactDistrib → List String) (currency : String) (year : Int)
    (sims : Nat) (u : Nat → ℚ) :
    (∀ (st : RunState A) (r : A × ImpactDistrib),
      processAsset data_provider aggregator currency year sims u st r =
        ⟨(aggregator r.1 r.2).foldl
            (fun p key =>
              poolAdd p sims key (lossVecAt data_provider currency year sims u st.pos r))
            st.aggregation_pools,
          st.pos + sims,
          st.calls ++ [(getTrans data_provider currency year r.1 r.2).2]⟩) ∧
    (∀ results : List (A × ImpactDistrib),
      (runState results data_provider aggregator currency year sims u).pos =
        results.length * sims) :=
  ⟨processAsset_eq data_provider aggregator currency year sims u,
    runState_pos data_provider aggregator currency year sims u⟩

/-- C7: an asset whose keying policy returns an empty key list does not make
the run fail — its accumulation step leaves the pools unchanged, so its loss
contributes to no pool — and (for positive `sims`) the whole run still
completes normally with an `ok` result. -/
theorem claim7_empty_keys_not_fatal {A : Type} (data_provider : FinancialDataProvider A)
    (aggregator : A → ImpactDistrib → List String) (currency : String) (year : Int)
    (sims : Nat) (u : Nat → ℚ) (hsims : 0 < sims) :
    (∀ (st : RunState A) (r : A × ImpactDistrib), aggregator r.1 r.2 = [] →
      (processAsset data_provider aggregator currency year sims u st r).aggregation_pools =
        st.aggregation_pools) ∧
    (∀ results : List (A × ImpactDistrib),
      ∃ ms, (get_financial_impacts results data_provider aggregator currency year sims u).1 =
        Except.ok ms) := by
  constructor
  · intro st r hkeys
    rw [processAsset_eq]
    simp only [hkeys, List.foldl_nil]
  · intro results
    rw [gfi_fst]
    apply computeMeasures_ok
    intro kv hkv
    have hsz := runState_sizes data_provider aggregator currency year sims u results kv hkv
    intro hcon
    rw [hcon] at hsz
    simp at hsz
    omega

/-- Witness for C7: a concrete run whose only asset gets no keys completes
with empty pools and an `ok` result. -/
theorem claim7_empty_keys_not_fatal_witness :
    (runState [(0, impA)] dpA (fun _ _ => ([] : List String)) "EUR" 2030 1
        uHalf).aggregation_pools = [] ∧
    ∃ ms, (get_financial_impacts [(0, impA)] dpA (fun _ _ => ([] : List String)) "EUR" 2030 1
        uHalf).1 = Except.ok ms := by
  have h := claim7_empty_keys_not_fatal (A := Nat) dpA (fun _ _ => ([] : List String)) "EUR"
    2030 1 uHalf (by decide)
  exact ⟨h.1 ⟨[], 0, []⟩ (0, impA) rfl, h.2 [(0, impA)]⟩

/-- C8: two runs of `get_financial_impacts` with identical inputs and the same
random seed return identical results — the output depends on the generator
stream only through its first `results.length * sims` draws, so equal streams
(equal seeds) give equal percentile values, means and call traces. -/
theorem claim8_deterministic {A : Type} (results : List (A × ImpactDistrib))
    (data_provider : FinancialDataProvider A) (aggregator : A → ImpactDistrib → List String)
    (currency : String) (year : Int) (sims : Nat) (u1 u2 : Nat → ℚ)
    (h : ∀ i, i < results.length * sims → u1 i = u2 i) :
    get_financial_impacts results data_provider aggregator currency year sims u1 =
      get_financial_impacts results data_provider aggregator currency year sims u2 := by
  unfold get_financial_impacts runState
  rw [foldl_stream_agree data_provider aggregator currency year sims u1 u2 results ⟨[], 0, []⟩
    (fun i _ h2 => h i (by simpa using h2))]

/-- Witness for C8: two streams that agree on the two draws actually consumed
(but differ later) produce identical outputs. -/
theorem claim8_deterministic_witness :
    get_financial_impacts [(0, impA)] dpA DefaultAggregator.get_aggregation_keys "EUR" 2030 2
        uHalf =
      get_financial_impacts [(0, impA)] dpA DefaultAggregator.get_aggregation_keys "EUR" 2030 2
        uAlt :=
  claim8_deterministic [(0, impA)] dpA DefaultAggregator.get_aggregation_keys "EUR" 2030 2
    uHalf uAlt (by with_unfolding_all decide)

/-- C9: the default keying policy returns the impact's hazard event class name
together with the root key, so under the default aggregator every processed
asset contributes to the grand-total `root` pool and to its per-hazard
pool. -/
theorem claim9_default_aggregator {A : Type} (data_provider : FinancialDataProvider A)
    (currency : String) (year : Int) (sims : Nat) (u : Nat → ℚ) :
    (∀ (asset : A) (impact : ImpactDistrib),
      DefaultAggregator.get_aggregation_keys asset impact = [impact.event_type, "root"]) ∧
    (∀ (results : List (A × ImpactDistrib)) (r : A × ImpactDistrib), r ∈ results →
      "root" ∈ poolKeys (runState results data_provider
        DefaultAggregator.get_aggregation_keys currency year sims u).aggregation_pools ∧
      (r.2 : ImpactDistrib).event_type ∈ poolKeys (runState results data_provider
        DefaultAggregator.get_aggregation_keys currency year sims u).aggregation_pools) := by
  constructor
  · intro asset impact
    rfl
  · intro results r hr
    constructor
    · exact (mem_poolKeys_runState data_provider DefaultAggregator.get_aggregation_keys
        currency year sims u results "root").mpr
        ⟨r, hr, by simp [DefaultAggregator.get_aggregation_keys]⟩
    · exact (mem_poolKeys_runState data_provider DefaultAggregator.get_aggregation_keys
        currency year sims u results r.2.event_type).mpr
        ⟨r, hr, by simp [DefaultAggregator.get_aggregation_keys]⟩

/-- Witness for C9 at a concrete one-asset run. -/
theorem claim9_default_aggregator_witness :
    "root" ∈ poolKeys (runState [(0, impA)] dpA DefaultAggregator.get_aggregation_keys "EUR"
        2030 2 uHalf).aggregation_pools ∧
    "Inundation" ∈ poolKeys (runState [(0, impA)] dpA DefaultAggregator.get_aggregation_keys
        "EUR" 2030 2 uHalf).aggregation_pools :=
  (claim9_default_aggregator (A := Nat) dpA "EUR" 2030 2 uHalf).2 [(0, impA)] (0, impA)
    (List.mem_cons_self _ _)

/-- Counterexample to C1: with a keying policy that lists the key `p` twice
for the single asset, the accumulated pool vector is `[2]`, not the
once-per-asset sum `[1]` that the claim describes. -/
theorem claim1_counterexample :
    poolLookup (runState [(0, impA)] dpA dupAgg "EUR" 2030 1 uHalf).aggregation_pools "p" =
      some [2] ∧
    specPoolOnce dpA dupAgg "EUR" 2030 1 uHalf "p" 0 [(0, impA)] = [1] ∧
    poolLookup (runState [(0, impA)] dpA dupAgg "EUR" 2030 1 uHalf).aggregation_pools "p" ≠
      some (specPoolOnce dpA dupAgg "EUR" 2030 1 uHalf "p" 0 [(0, impA)]) := by
  refine ⟨?_, ?_, ?_⟩ <;> with_unfolding_all decide

/-- C1 (amended): every pool vector of a run of `get_financial_impacts` has
exactly `sims` elements and equals the element-wise sum — starting from a zero
vector of length `sims` created on the first contribution — of the per-asset
sampled loss vectors (exposure scalar times impact samples), where each asset
contributes once per occurrence of the pool's key in its key list (not once
per asset, as duplicated keys are accumulated repeatedly). -/
theorem claim1_pool_vector_counted_sum {A : Type} (results : List (A × ImpactDistrib))
    (data_provider : FinancialDataProvider A) (aggregator : A → ImpactDistrib → List String)
    (currency : String) (year : Int) (sims : Nat) (u : Nat → ℚ) (k : String) (v : List ℚ)
    (h : poolLookup (runState results data_provider aggregator currency year sims
      u).aggregation_pools k = some v) :
    v.length = sims ∧
      v = specPoolCounted data_provider aggregator currency year sims u k 0 results := by
  have hmem := poolLookup_mem _ k v h
  have hlen : v.length = sims :=
    runState_sizes data_provider aggregator currency year sims u results (k, v) hmem
  refine ⟨hlen, ?_⟩
  apply List.ext_getElem
    (by rw [hlen, specPoolCounted_length data_provider aggregator currency year sims u k 0
      results])
  intro j h1 h2
  have hj : j < sims := by rw [hlen] at h1; exact h1
  rw [← getDq_eq_getElem' v j 0 h1, ← getDq_eq_getElem' _ j 0 h2]
  have hv : v.getD j 0 = poolGetD (runState results data_provider aggregator currency year
      sims u).aggregation_pools k j := by
    unfold poolGetD
    rw [h]
  rw [hv, poolGetD_runState data_provider aggregator currency year sims u results k j hj,
    specPoolCounted_getD data_provider aggregator currency year sims u k j hj 0 results]

/-- Witness for C1 (amended) at a concrete one-asset run. -/
theorem claim1_pool_vector_counted_sum_witness :
    poolLookup (runState [(0, impA)] dpA DefaultAggregator.get_aggregation_keys "EUR" 2030 2
        uHalf).aggregation_pools "root" = some [1, 1] ∧
    ([1, 1] : List ℚ).length = 2 ∧
    ([1, 1] : List ℚ) = specPoolCounted dpA DefaultAggregator.get_aggregation_keys "EUR" 2030
      2 uHalf "root" 0 [(0, impA)] := by
  have hlk : poolLookup (runState [(0, impA)] dpA DefaultAggregator.get_aggregation_keys
      "EUR" 2030 2 uHalf).aggregation_pools "root" = some [1, 1] := by
    with_unfolding_all decide
  have h := claim1_pool_vector_counted_sum [(0, impA)] dpA
    DefaultAggregator.get_aggregation_keys "EUR" 2030 2 uHalf "root" [1, 1] hlk
  exact ⟨hlk, h.1, h.2⟩

/-- Counterexample to C3: with a keying policy that returns `root` twice for
the single asset, the asset's loss vector `[2/3]` is added to the `root` pool
twice, giving `[4/3]`, not once. -/
theorem claim3_counterexample :
    lossVecAt dpA "EUR" 2030 1 uThird 0 (0, impA) = [2 / 3] ∧
    poolLookup (runState [(0, impA)] dpA dupRootAgg "EUR" 2030 1
        uThird).aggregation_pools "root" = some [4 / 3] ∧
    poolLookup (runState [(0, impA)] dpA dupRootAgg "EUR" 2030 1
        uThird).aggregation_pools "root" ≠
      some (lossVecAt dpA "EUR" 2030 1 uThird 0 (0, impA)) := by
  refine ⟨?_, ?_, ?_⟩ <;> with_unfolding_all decide

/-- C3 (amended): when an asset's key list contains a key `count` times, its
loss vector is accumulated into that key's pool once per occurrence: the
asset's processing step increases the pool value at each sample index by
`count • loss` (duplicates are not collapsed to a single addition). -/
theorem claim3_duplicate_keys_per_occurrence {A : Type}
    (data_provider : FinancialDataProvider A) (aggregator : A → ImpactDistrib → List String)
    (currency : String) (year : Int) (sims : Nat) (u : Nat → ℚ) (st : RunState A)
    (r : A × ImpactDistrib) (k : String) (j : Nat)
    (hps : ∀ kv ∈ st.aggregation_pools, (kv.2 : List ℚ).length = sims) (hj : j < sims) :
    poolGetD (processAsset data_provider aggregator currency year sims u
        st r).aggregation_pools k j =
      poolGetD st.aggregation_pools k j +
        ((aggregator r.1 r.2).count k : ℚ) *
          (lossVecAt data_provider currency year sims u st.pos r).getD j 0 := by
  rw [processAsset_eq]
  exact poolGetD_foldlKeys sims (aggregator r.1 r.2) st.aggregation_pools k _ j hps
    (lossVecAt_length data_provider currency year sims u st.pos r) hj

/-- Witness for C3 (amended) at the duplicate-root-key fixture. -/
theorem claim3_duplicate_keys_per_occurrence_witness :
    poolGetD (processAsset dpA dupRootAgg "EUR" 2030 1 uThird ⟨[], 0, []⟩
        (0, impA)).aggregation_pools "root" 0 =
      poolGetD [] "root" 0 +
        ((dupRootAgg 0 impA).count "root" : ℚ) *
          (lossVecAt dpA "EUR" 2030 1 uThird 0 (0, impA)).getD 0 0 :=
  claim3_duplicate_keys_per_occurrence dpA dupRootAgg "EUR" 2030 1 uThird ⟨[], 0, []⟩
    (0, impA) "root" 0 (by simp) (by decide)

/-- C5: every pool record returned by a successful run carries the fixed
percentile ladder 0, 10, 20, 40, 60, 80, 90, 95, 97.5, 99, 99.5, 99.9; its
`percentile_values` has the same length as the ladder and is monotonically
non-decreasing in percentile order; and its `mean` is exactly the arithmetic
mean (sum divided by length) of that pool's accumulated loss vector. -/
theorem claim5_measures_spec {A : Type} (results : List (A × ImpactDistrib))
    (data_provider : FinancialDataProvider A) (aggregator : A → ImpactDistrib → List String)
    (currency : String) (year : Int) (sims : Nat) (u : Nat → ℚ)
    (ms : List (String × PoolMeasure))
    (h : (get_financial_impacts results data_provider aggregator currency year sims u).1 =
      Except.ok ms) :
    ∀ km ∈ ms,
      (km.2 : PoolMeasure).percentiles =
        [0, 10, 20, 40, 60, 80, 90, 95, 97.5, 99, 99.5, 99.9] ∧
      (km.2 : PoolMeasure).percentile_values.length = 12 ∧
      List.Chain' (fun a b => a ≤ b) (km.2 : PoolMeasure).percentile_values ∧
      ∃ v, poolLookup (runState results data_provider aggregator currency year sims
          u).aggregation_pools km.1 = some v ∧
        (km.2 : PoolMeasure).mean = v.sum / (v.length : ℚ) := by
  rw [gfi_fst] at h
  intro km hkm
  obtain ⟨hp, hl, hc, v, hv, hm⟩ := computeMeasures_spec
    (runState results data_provider aggregator currency year sims u).aggregation_pools
    (nodup_poolKeys_runState data_provider aggregator currency year sims u results) ms h km
    hkm
  exact ⟨hp, hl, hc, v, hv, hm⟩

/-- Witness for C5 at a concrete successful two-sample run. -/
theorem claim5_measures_spec_witness :
    (PoolMeasure.mk percentiles (List.replicate 12 1) 1).percentiles =
        [0, 10, 20, 40, 60, 80, 90, 95, 97.5, 99, 99.5, 99.9] ∧
      (PoolMeasure.mk percentiles (List.replicate 12 1) 1).percentile_values.length = 12 ∧
      List.Chain' (fun a b => a ≤ b)
        (PoolMeasure.mk percentiles (List.replicate 12 1) 1).percentile_values ∧
      ∃ v, poolLookup (runState [(0, impA)] dpA DefaultAggregator.get_aggregation_keys "EUR"
          2030 2 uHalf).aggregation_pools "root" = some v ∧
        (PoolMeasure.mk percentiles (List.replicate 12 1) 1).mean =
          v.sum / (v.length : ℚ) := by
  have hok : (get_financial_impacts [(0, impA)] dpA DefaultAggregator.get_aggregation_keys
      "EUR" 2030 2 uHalf).1 =
      Except.ok [("Inundation", PoolMeasure.mk percentiles (List.replicate 12 1) 1),
        ("root", PoolMeasure.mk percentiles (List.replicate 12 1) 1)] := by
    with_unfolding_all decide
  exact claim5_measures_spec [(0, impA)] dpA DefaultAggregator.get_aggregation_keys "EUR"
    2030 2 uHalf _ hok ("root", PoolMeasure.mk percentiles (List.replicate 12 1) 1)
    (by simp)

/-- Counterexample to C10: an asset whose hazard event class is literally
named `root` is keyed to `root` twice by the default aggregator, so the root
pool holds twice its loss while no other pool exists — the root vector `[2]`
differs from the sum `[0]` of the (absent) other pools. -/
theorem claim10_counterexample :
    ((poolLookup (runState [(0, impR)] dpA DefaultAggregator.get_aggregation_keys "EUR" 2030 1
        uHalf).aggregation_pools "root").getD (zeros 1)) = [2] ∧
    sumVecs 1 (((runState [(0, impR)] dpA DefaultAggregator.get_aggregation_keys "EUR" 2030 1
        uHalf).aggregation_pools.filter fun kv => kv.1 ≠ "root").map Prod.snd) = [0] ∧
    ¬((poolLookup (runState [(0, impR)] dpA DefaultAggregator.get_aggregation_keys "EUR" 2030
        1 uHalf).aggregation_pools "root").getD (zeros 1) =
      sumVecs 1 (((runState [(0, impR)] dpA DefaultAggregator.get_aggregation_keys "EUR" 2030
        1 uHalf).aggregation_pools.filter fun kv => kv.1 ≠ "root").map Prod.snd)) := by
  refine ⟨?_, ?_, ?_⟩ <;> with_unfolding_all decide

/-- C10 (amended): in a run with the default aggregator in which no impact's
hazard event class is itself named `root`, the accumulated vector of the
`root` pool equals the element-wise sum of the accumulated vectors of all
other (per-event-type) pools, since every asset then contributes its loss
vector exactly once to `root` and exactly once to its event-type pool. -/
theorem claim10_root_pool_sum {A : Type} (results : List (A × ImpactDistrib))
    (data_provider : FinancialDataProvider A) (currency : String) (year : Int) (sims : Nat)
    (u : Nat → ℚ)
    (hroot : ∀ r ∈ results, (r.2 : ImpactDistrib).event_type ≠ "root") :
    ((poolLookup (runState results data_provider DefaultAggregator.get_aggregation_keys
        currency year sims u).aggregation_pools "root").getD (zeros sims)) =
      sumVecs sims (((runState results data_provider DefaultAggregator.get_aggregation_keys
        currency year sims u).aggregation_pools.filter
          fun kv => kv.1 ≠ "root").map Prod.snd) := by
  have hsizes := runState_sizes data_provider DefaultAggregator.get_aggregation_keys currency
    year sims u results
  have hnd := nodup_poolKeys_runState data_provider DefaultAggregator.get_aggregation_keys
    currency year sims u results
  have hfil : ∀ v2 ∈ ((runState results data_provider DefaultAggregator.get_aggregation_keys
      currency year sims u).aggregation_pools.filter
        fun kv => kv.1 ≠ "root").map Prod.snd, (v2 : List ℚ).length = sims := by
    intro v2 hv2
    obtain ⟨kv, hkv, hsnd⟩ := List.mem_map.mp hv2
    rw [← hsnd]
    exact hsizes kv (List.mem_of_mem_filter hkv)
  have hLlen : ((poolLookup (runState results data_provider
      DefaultAggregator.get_aggregation_keys currency year sims u).aggregation_pools
      "root").getD (zeros sims)).length = sims := by
    cases hlk : poolLookup (runState results data_provider
        DefaultAggregator.get_aggregation_keys currency year sims u).aggregation_pools
        "root" with
    | none => simp [zeros_length]
    | some v =>
      simpa using hsizes ("root", v) (poolLookup_mem _ "root" v hlk)
  apply List.ext_getElem (by rw [hLlen, sumVecs_length sims _ hfil])
  intro j h1 h2
  have hj : j < sims := by rw [hLlen] at h1; exact h1
  rw [← getDq_eq_getElem' _ j 0 h1, ← getDq_eq_getElem' _ j 0 h2]
  have hL : ((poolLookup (runState results data_provider
      DefaultAggregator.get_aggregation_keys currency year sims u).aggregation_pools
      "root").getD (zeros sims)).getD j 0 =
      poolGetD (runState results data_provider DefaultAggregator.get_aggregation_keys
        currency year sims u).aggregation_pools "root" j := by
    unfold poolGetD
    cases hlk : poolLookup (runState results data_provider
        DefaultAggregator.get_aggregation_keys currency year sims u).aggregation_pools
        "root" with
    | none =>
      simp only [Option.getD_none]
      exact zeros_getD sims j
    | some v => simp
  rw [hL, poolGetD_runState data_provider DefaultAggregator.get_aggregation_keys currency
    year sims u results "root" j hj]
  rw [sumVecs_getD sims _ j hj hfil, List.map_map]
  have hstep1 : (((runState results data_provider DefaultAggregator.get_aggregation_keys
      currency year sims u).aggregation_pools.filter fun kv => kv.1 ≠ "root").map
        ((fun v => List.getD v j 0) ∘ Prod.snd)) =
      ((runState results data_provider DefaultAggregator.get_aggregation_keys currency year
        sims u).aggregation_pools.filter fun kv => kv.1 ≠ "root").map
          fun kv => contribSum data_provider DefaultAggregator.get_aggregation_keys currency
            year sims u kv.1 j 0 results := by
    apply List.map_congr_left
    intro kv hkv
    obtain ⟨k0, v0⟩ := kv
    have hkvps := List.mem_of_mem_filter hkv
    have hlk : poolLookup (runState results data_provider
        DefaultAggregator.get_aggregation_keys currency year sims u).aggregation_pools k0 =
        some v0 := poolLookup_of_mem_nodup _ k0 v0 hnd hkvps
    have : v0.getD j 0 = poolGetD (runState results data_provider
        DefaultAggregator.get_aggregation_keys currency year sims
        u).aggregation_pools k0 j := by
      unfold poolGetD
      rw [hlk]
    simp only [Function.comp_apply]
    rw [this, poolGetD_runState data_provider DefaultAggregator.get_aggregation_keys currency
      year sims u results k0 j hj]
  rw [hstep1]
  have hstep2 : (((runState results data_provider DefaultAggregator.get_aggregation_keys
      currency year sims u).aggregation_pools.filter fun kv => kv.1 ≠ "root").map
        fun kv => contribSum data_provider DefaultAggregator.get_aggregation_keys currency
          year sims u kv.1 j 0 results) =
      ((((runState results data_provider DefaultAggregator.get_aggregation_keys currency year
        sims u).aggregation_pools.filter fun kv => kv.1 ≠ "root").map Prod.fst).map
          fun k => contribSum data_provider DefaultAggregator.get_aggregation_keys currency
            year sims u k j 0 results) := by
    rw [List.map_map]
    rfl
  rw [hstep2]
  refine (sum_contrib_eq_root data_provider currency year sims u j _ ?_ ?_ results 0 ?_).symm
  · refine List.Nodup.sublist ?_ hnd
    exact List.Sublist.map Prod.fst (List.filter_sublist _)
  · intro hcon
    obtain ⟨kv, hkv, hfst⟩ := List.mem_map.mp hcon
    have := (List.mem_filter.mp hkv).2
    simp only [decide_eq_true_eq] at this
    exact this hfst
  · intro r hr
    refine ⟨hroot r hr, ?_⟩
    have hmem : (r.2 : ImpactDistrib).event_type ∈ poolKeys (runState results data_provider
        DefaultAggregator.get_aggregation_keys currency year sims u).aggregation_pools :=
      (mem_poolKeys_runState data_provider DefaultAggregator.get_aggregation_keys currency
        year sims u results r.2.event_type).mpr
        ⟨r, hr, by simp [DefaultAggregator.get_aggregation_keys]⟩
    obtain ⟨kv, hkv, hfst⟩ := List.mem_map.mp hmem
    refine List.mem_map.mpr ⟨kv, ?_, hfst⟩
    refine List.mem_filter.mpr ⟨hkv, ?_⟩
    simp only [decide_eq_true_eq]
    rw [hfst]
    exact hroot r hr

/-- Witness for C10 (amended) at a concrete one-asset run whose event type is
not named `root`. -/
theorem claim10_root_pool_sum_witness :
    ((poolLookup (runState [(0, impA)] dpA DefaultAggregator.get_aggregation_keys "EUR" 2030 2
        uHalf).aggregation_pools "root").getD (zeros 2)) =
      sumVecs 2 (((runState [(0, impA)] dpA DefaultAggregator.get_aggregation_keys "EUR" 2030
        2 uHalf).aggregation_pools.filter fun kv => kv.1 ≠ "root").map Prod.snd) :=
  claim10_root_pool_sum [(0, impA)] dpA "EUR" 2030 2 uHalf
    (by intro r hr
        rcases List.mem_cons.mp hr with h1 | h1
        · rw [h1]
          with_unfolding_all decide
        · simp at h1)

end Physrisk
